import Mathlib

/-!
Verification development for the semantic-context-mcp indexing/retrieval
pipeline (src/shared/CodeSearchEngine.ts and src/http-server.ts).

Modelling conventions:
- JavaScript strings are modelled as `List Char`; `string.length` is
  `List.length`, `String.prototype.trim` is `jsTrim` (dropping whitespace
  characters at both ends), and `Array.prototype.join('\n')` is `joinNL`.
- Identifiers that the code builds with template strings (chunk ids) are
  modelled with Lean `String`.
- JavaScript numbers appearing in similarity computations are modelled as
  rationals; `toFixed(3)` is modelled as rounding to an integer multiple of
  1/1000.
- Fallible external calls (the embedding HTTP endpoint, the vector-store
  `add`) are modelled by explicit result parameters (`Except`/`Bool`).
-/

namespace CodeSearch

/-- Model of `String.prototype.trim` on the left end: drop leading whitespace. -/
def trimLeft (s : List Char) : List Char := s.dropWhile Char.isWhitespace

/-- Model of `String.prototype.trim` on the right end: drop trailing whitespace. -/
def trimRight (s : List Char) : List Char := (s.reverse.dropWhile Char.isWhitespace).reverse

/-- Model of JavaScript `String.prototype.trim`. -/
def jsTrim (s : List Char) : List Char := trimRight (trimLeft s)

/-- Model of JavaScript `Array.prototype.join('\n')` (= `List.intercalate ['\n']`). -/
def joinNL : List (List Char) → List Char
  | [] => []
  | [g] => g
  | g :: gs => g ++ '\n' :: joinNL gs

/-- A chunk as produced by `processFileWithStreaming`
(CodeSearchEngine.ts lines 440-477). -/
structure Chunk where
  content : List Char
  file_path : String
  file_type : String
  chunk_index : Nat
deriving Repr, DecidableEq

/-- The mutable state of the `rl.on('line', ...)` loop in
`processFileWithStreaming`: the chunks accumulated so far, the current
accumulating buffer (`currentChunk`) and the next chunk index. -/
structure ChunkerState where
  chunks : List Chunk
  currentChunk : List Char
  chunkIndex : Nat
deriving Repr, DecidableEq

/-- One iteration of the `rl.on('line', ...)` handler in
`processFileWithStreaming` (CodeSearchEngine.ts lines 440-463):
lines longer than 10000 characters are skipped; if the buffer is non-empty
and would overflow `maxChunkSize`, the trimmed buffer is emitted and the
line starts a new buffer; otherwise the line is appended to the buffer,
preceded by a newline when the buffer is non-empty. -/
def processLine (fp ft : String) (maxChunkSize : Nat) (st : ChunkerState)
    (line : List Char) : ChunkerState :=
  if line.length > 10000 then
    st
  else if st.currentChunk.length + line.length > maxChunkSize ∧
      st.currentChunk.length > 0 then
    { chunks := st.chunks ++ [⟨jsTrim st.currentChunk, fp, ft, st.chunkIndex⟩],
      currentChunk := line,
      chunkIndex := st.chunkIndex + 1 }
  else
    { st with
      currentChunk :=
        st.currentChunk ++ (if st.currentChunk = [] then [] else ['\n']) ++ line }

/-- The `rl.on('close', ...)` handler of `processFileWithStreaming`
(CodeSearchEngine.ts lines 465-477): emit the final buffer if it trims to a
non-empty string. -/
def finishChunks (fp ft : String) (st : ChunkerState) : List Chunk :=
  if jsTrim st.currentChunk ≠ [] then
    st.chunks ++ [⟨jsTrim st.currentChunk, fp, ft, st.chunkIndex⟩]
  else
    st.chunks

/-- Model of `processFileWithStreaming` (CodeSearchEngine.ts lines 422-484),
taking the file's content as its list of lines (the readline interface
delivers the file line by line). -/
def processFileWithStreaming (fp ft : String) (maxChunkSize : Nat)
    (lines : List (List Char)) : List Chunk :=
  finishChunks fp ft (lines.foldl (processLine fp ft maxChunkSize) ⟨[], [], 0⟩)

/-- Boolean test that the first list is a prefix of the second
(model of JavaScript `String.prototype.startsWith`). -/
def startsWithL : List Char → List Char → Bool
  | [], _ => true
  | _ :: _, [] => false
  | p :: ps, c :: cs => p == c && startsWithL ps cs

/-- Boolean test that the first list is a suffix of the second
(model of JavaScript `String.prototype.endsWith`). -/
def endsWithL (t s : List Char) : Bool := startsWithL t.reverse s.reverse

/-- Semantics of the anchored regular expression built by the final branch of
`matchesPattern` (CodeSearchEngine.ts lines 542-549): every regex
metacharacter of the pattern is escaped to a literal, then `**` and `*`
become `.*` and `?` becomes `.`; so `*` matches any character sequence,
`?` matches one character and every other character matches literally. -/
def globMatch : List Char → List Char → Bool
  | [], [] => true
  | [], _ :: _ => false
  | '*' :: ps, [] => globMatch ps []
  | '*' :: ps, c :: cs => globMatch ps (c :: cs) || globMatch ('*' :: ps) cs
  | '?' :: _, [] => false
  | '?' :: ps, _ :: cs => globMatch ps cs
  | _ :: _, [] => false
  | p :: ps, c :: cs => p == c && globMatch ps cs
  termination_by p s => (s.length, p.length)

/-- Model of `matchesPattern` (CodeSearchEngine.ts lines 531-550). -/
def matchesPattern (filePath pattern : List Char) : Bool :=
  if endsWithL ['/', '*', '*'] pattern then
    let base := pattern.take (pattern.length - 3)
    filePath == base || startsWithL (base ++ ['/']) filePath
  else if startsWithL ['*', '.'] pattern then
    let ext := pattern.drop 1
    endsWithL ext filePath
  else
    globMatch pattern filePath

/-- Shorthand for turning a string literal into the `List Char` model. -/
def chars (s : String) : List Char := s.toList

/-- A chunk after `indexLocalProject` (CodeSearchEngine.ts lines 222-229) has
injected the run-constant project metadata. -/
structure StoredChunk where
  content : List Char
  file_path : String
  file_type : String
  chunk_index : Nat
  project_id : String
  project_name : String
  project_path : String
  source_type : String
  indexed_at : String
deriving Repr, DecidableEq

/-- The metadata record built for each chunk by `storeChunksInBatches`
(CodeSearchEngine.ts lines 559-568): every `StoredChunk` field except
`content`. -/
structure ChunkMetadata where
  file_path : String
  project_id : String
  project_name : String
  project_path : String
  source_type : String
  file_type : String
  chunk_index : Nat
  indexed_at : String
deriving Repr, DecidableEq

/-- Projection from a stored chunk to its metadata record
(CodeSearchEngine.ts lines 559-568). -/
def storedMetadata (c : StoredChunk) : ChunkMetadata :=
  ⟨c.file_path, c.project_id, c.project_name, c.project_path,
   c.source_type, c.file_type, c.chunk_index, c.indexed_at⟩

/-- The id assigned at ingestion time:
`{projectId}_chunk_{globalSequenceNumber}` (CodeSearchEngine.ts line 557). -/
def chunkId (projectId : String) (n : Nat) : String :=
  projectId ++ "_chunk_" ++ toString n

/-- One `collection.add` call made by `storeChunksInBatches`: three parallel
arrays of ids, documents and metadata records. -/
structure BatchWrite where
  ids : List String
  documents : List (List Char)
  metadatas : List ChunkMetadata
deriving Repr, DecidableEq

/-- The batch loop of `storeChunksInBatches` (CodeSearchEngine.ts lines
555-581), as the list of `collection.add` payloads in write order. The
source iterates `i = 0, batchSize, 2*batchSize, ...` over the full chunk
list and takes `chunks.slice(i, i + batchSize)`; this recursion carries the
offset `i` and the not-yet-batched tail (`rest.drop (batchSize - 1)` equals
`(c :: rest).drop batchSize` for every positive `batchSize`, which is the
loop's next tail; the source's loop is only entered with positive batch
sizes, its default being 100). -/
def storeChunksGo (projectId : String) (batchSize : Nat) :
    Nat → List StoredChunk → List BatchWrite
  | _, [] => []
  | i, c :: rest =>
    let batch := (c :: rest).take batchSize
    { ids := (List.range batch.length).map (fun idx => chunkId projectId (i + idx)),
      documents := batch.map StoredChunk.content,
      metadatas := batch.map storedMetadata } ::
      storeChunksGo projectId batchSize (i + batchSize) (rest.drop (batchSize - 1))
  termination_by _ chunks => chunks.length
  decreasing_by
    simp only [List.length_drop, List.length_cons]
    omega

/-- Model of `storeChunksInBatches` (CodeSearchEngine.ts lines 552-582) as
the sequence of batch writes it performs, in order. -/
def storeChunksInBatches (chunks : List StoredChunk) (projectId : String)
    (batchSize : Nat) : List BatchWrite :=
  storeChunksGo projectId batchSize 0 chunks

/-- Execution of the write loop of `storeChunksInBatches` against a fallible
store: `ok k` tells whether the `collection.add` for the batch at position
`k` succeeds. Returns the batches that were persisted and either success or
the propagated error (the source rethrows the first failing batch's error,
lines 570-580). -/
def storeExec (ok : Nat → Bool) : Nat → List BatchWrite → List BatchWrite × Except Unit Unit
  | _, [] => ([], Except.ok ())
  | k, b :: rest =>
    if ok k then
      let r := storeExec ok (k + 1) rest
      (b :: r.1, r.2)
    else
      ([], Except.error ())

/-- Model of the way `indexLocalProject` (CodeSearchEngine.ts lines 238-258)
surfaces the outcome of `storeChunksInBatches`: on success it returns the
summary text, and its `catch (error) \x7b throw error \x7d` wrapper rethrows a
batch-write failure as a failure of the whole request. -/
def indexRunResult (ok : Nat → Bool) (batches : List BatchWrite) : Except Unit String :=
  match (storeExec ok 0 batches).2 with
  | Except.ok _ => Except.ok "Successfully indexed local project"
  | Except.error e => Except.error e

/-- Model of `OllamaEmbeddingFunction.generate` (CodeSearchEngine.ts lines
47-76): one request per input text, in order; `fetchEmbedding t` is the
outcome of the per-text HTTP call (`Except.error` covers both a non-ok
response and a transport error, which the source's `catch` treats alike by
pushing a zero-filled vector of length 384). Vector entries are modelled as
integers; the claims under verification only inspect lengths and zeroness. -/
def ollamaGenerate (fetchEmbedding : List Char → Except Unit (List Int)) :
    List (List Char) → List (List Int)
  | [] => []
  | t :: ts =>
    (match fetchEmbedding t with
     | Except.ok e => e
     | Except.error _ => List.replicate 384 0) :: ollamaGenerate fetchEmbedding ts

/-- The raw similarity value `1 - distance` computed by `searchCodebase`
(CodeSearchEngine.ts line 296) and `searchByFileType` (http-server.ts line
333). -/
def similarityOfDistance (d : ℚ) : ℚ := 1 - d

/-- Model of JavaScript `Number.prototype.toFixed(3)`: the displayed value is
the argument rounded to an integer number of thousandths. -/
def toFixed3 (q : ℚ) : ℚ := ((round (q * 1000) : ℤ) : ℚ) / 1000

/-- The similarity figure displayed for a result with distance `d`:
`(1 - distance).toFixed(3)`. -/
def displayedSimilarity (d : ℚ) : ℚ := toFixed3 (similarityOfDistance d)

/-- A stored record as seen by `getFileContent` (http-server.ts lines
380-384): its document text and the optional `chunk_index` from its
metadata (`none` models metadata that lacks the field). -/
structure FileRecord where
  content : List Char
  chunk_index : Option Nat
deriving Repr, DecidableEq

/-- The sort key `(a.metadata?.chunk_index || 0)` used by `getFileContent`:
a missing `chunk_index` counts as 0. -/
def recKey (r : FileRecord) : Nat := r.chunk_index.getD 0

/-- The `sort((a, b) => (a.metadata?.chunk_index || 0) - (b.metadata?.chunk_index || 0))`
step of `getFileContent` (http-server.ts line 384). JavaScript
`Array.prototype.sort` is a stable ascending sort for this comparator,
modelled by a stable merge sort on the key. -/
def sortChunks (records : List FileRecord) : List FileRecord :=
  records.mergeSort (fun a b => decide (recKey a ≤ recKey b))

/-- The reconstructed file text of `getFileContent` (http-server.ts line
386): sorted contents joined with newlines. -/
def getFileContentText (records : List FileRecord) : List Char :=
  joinNL ((sortChunks records).map FileRecord.content)

/-- Outcome of `getFileContent`: either the "File not found" text response or
the response carrying the reconstructed content. Both are ordinary text
responses; the operation does not fail. -/
inductive FileContentResult where
  | notFound (message : List Char)
  | found (text : List Char)
deriving Repr, DecidableEq

/-- Model of `getFileContent` (http-server.ts lines 353-401) applied to the
records the store returned for the exact `file_path` filter: an empty
result set yields the "File not found" text, otherwise the sorted, joined
content. -/
def getFileContent (filePath : List Char) (records : List FileRecord) :
    FileContentResult :=
  if records.length = 0 then
    FileContentResult.notFound (chars "File not found: " ++ filePath)
  else
    FileContentResult.found (getFileContentText records)

/-- The `where` filter on `project_id` built by `searchCodebase`
(CodeSearchEngine.ts lines 270-278): the filter object gains a
`project_id` equality entry only when `project_filter` is truthy (present
and not the empty string), and an empty filter object is passed to the
store as `undefined` (`none`). -/
def searchWhereClause (project_filter : Option String) : Option String :=
  match project_filter with
  | some f => if f = "" then none else some f
  | none => none

/-- The arguments of the `collection.query` call issued by `searchCodebase`
(CodeSearchEngine.ts lines 275-279). -/
structure QueryCall where
  queryTexts : List String
  nResults : Nat
  whereProjectId : Option String
deriving Repr, DecidableEq

/-- The query `searchCodebase` sends to the vector store for the given
arguments. -/
def searchCodebaseQuery (query : String) (limit : Nat)
    (project_filter : Option String) : QueryCall :=
  ⟨[query], limit, searchWhereClause project_filter⟩

/-! Helper lemmas about the string model. -/

theorem jsTrim_length_le (s : List Char) : (jsTrim s).length ≤ s.length := by
  have h1 : (trimLeft s).length ≤ s.length :=
    (List.dropWhile_sublist _).length_le
  have h2 : (trimRight (trimLeft s)).length ≤ (trimLeft s).length := by
    rw [trimRight, List.length_reverse]
    calc ((trimLeft s).reverse.dropWhile Char.isWhitespace).length
        ≤ (trimLeft s).reverse.length := (List.dropWhile_sublist _).length_le
      _ = (trimLeft s).length := List.length_reverse _
  exact le_trans h2 h1

theorem trimLeft_newline_cons (s : List Char) : trimLeft ('\n' :: s) = trimLeft s := by
  have hw : Char.isWhitespace '\n' = true := by decide
  simp [trimLeft, List.dropWhile_cons, hw]

theorem jsTrim_newlines (k : Nat) (s : List Char) :
    jsTrim (List.replicate k '\n' ++ s) = jsTrim s := by
  induction k with
  | zero => simp
  | succ k ih =>
    rw [List.replicate_succ, List.cons_append, jsTrim, trimLeft_newline_cons]
    exact ih

theorem joinNL_concat (xs : List (List Char)) (y : List Char) (h : xs ≠ []) :
    joinNL (xs ++ [y]) = joinNL xs ++ '\n' :: y := by
  induction xs with
  | nil => exact absurd rfl h
  | cons a t ih =>
    cases t with
    | nil => simp [joinNL]
    | cons b t' =>
      have h1 : joinNL ((a :: b :: t') ++ [y]) = a ++ '\n' :: joinNL ((b :: t') ++ [y]) :=
        rfl
      have h2 : joinNL (a :: b :: t') = a ++ '\n' :: joinNL (b :: t') := rfl
      rw [h1, ih (by simp), h2]
      simp

theorem startsWithL_iff : ∀ p s : List Char, startsWithL p s = true ↔ p <+: s
  | [], s => by simp [startsWithL]
  | p :: ps, [] => by simp [startsWithL]
  | p :: ps, c :: cs => by
    simp [startsWithL, List.cons_prefix_cons, startsWithL_iff ps cs]

theorem endsWithL_iff (t s : List Char) : endsWithL t s = true ↔ t <:+ s := by
  rw [endsWithL, startsWithL_iff, List.reverse_prefix]

/-! Chunk-index contiguity (streaming chunker). -/

theorem idx_step (fp ft : String) (m : Nat) (st : ChunkerState) (line : List Char)
    (h1 : st.chunks.map Chunk.chunk_index = List.range st.chunks.length)
    (h2 : st.chunkIndex = st.chunks.length) :
    (processLine fp ft m st line).chunks.map Chunk.chunk_index
        = List.range (processLine fp ft m st line).chunks.length ∧
      (processLine fp ft m st line).chunkIndex
        = (processLine fp ft m st line).chunks.length := by
  unfold processLine
  split
  · exact ⟨h1, h2⟩
  split
  · constructor
    · simp [List.range_succ, h1, h2]
    · simp [h2]
  · exact ⟨h1, h2⟩

theorem idx_foldl (fp ft : String) (m : Nat) :
    ∀ (lines : List (List Char)) (st : ChunkerState),
      st.chunks.map Chunk.chunk_index = List.range st.chunks.length →
      st.chunkIndex = st.chunks.length →
      (lines.foldl (processLine fp ft m) st).chunks.map Chunk.chunk_index
          = List.range (lines.foldl (processLine fp ft m) st).chunks.length ∧
        (lines.foldl (processLine fp ft m) st).chunkIndex
          = (lines.foldl (processLine fp ft m) st).chunks.length
  | [], _, h1, h2 => ⟨h1, h2⟩
  | l :: ls, st, h1, h2 => by
    have h := idx_step fp ft m st l h1 h2
    simpa using idx_foldl fp ft m ls (processLine fp ft m st l) h.1 h.2

/-- C2: for every input file, the chunk_index values carried by the emitted
chunk sequence are exactly 0..N-1, contiguous, with no gaps, in strictly
increasing emission order (the list of indices equals `List.range N`). -/
theorem chunker_chunk_indices (fp ft : String) (m : Nat) (lines : List (List Char)) :
    (processFileWithStreaming fp ft m lines).map Chunk.chunk_index
      = List.range (processFileWithStreaming fp ft m lines).length := by
  have h := idx_foldl fp ft m lines ⟨[], [], 0⟩ (by simp) (by simp)
  unfold processFileWithStreaming finishChunks
  split
  · simp [List.range_succ, h.1, h.2]
  · exact h.1

/-! Chunk size bound (streaming chunker). The claimed bound `maxChunkSize`
fails because appending a line to a non-empty buffer inserts a joining
newline that the emit guard `buffer.length + line.length > maxChunkSize`
does not count; the provable bound is `maxChunkSize + 1`. -/

/-- C3 is false as stated: with `maxChunkSize = 2` and the two lines
"a" and "b" (each of length 1 ≤ 2), the single emitted chunk is "a\nb" of
length 3 > 2, and it is not the trim of any single input line longer than
`maxChunkSize`. -/
theorem chunker_size_bound_counterexample :
    ∃ c ∈ processFileWithStreaming "f" "txt" 2 [['a'], ['b']],
      2 < c.content.length ∧
      ¬ ∃ l ∈ [['a'], ['b']], 2 < l.length ∧ c.content = jsTrim l := by
  decide

theorem size_step (fp ft : String) (m : Nat) (seen : List (List Char))
    (st : ChunkerState) (line : List Char)
    (h1 : ∀ c ∈ st.chunks, c.content.length ≤ m + 1 ∨
        ∃ l ∈ seen, m < l.length ∧ c.content = jsTrim l)
    (h2 : st.currentChunk.length ≤ m + 1 ∨
        ∃ l ∈ seen, m < l.length ∧ st.currentChunk = l) :
    (∀ c ∈ (processLine fp ft m st line).chunks, c.content.length ≤ m + 1 ∨
        ∃ l ∈ seen ++ [line], m < l.length ∧ c.content = jsTrim l) ∧
      ((processLine fp ft m st line).currentChunk.length ≤ m + 1 ∨
        ∃ l ∈ seen ++ [line], m < l.length ∧
          (processLine fp ft m st line).currentChunk = l) := by
  have hmono : ∀ c : Chunk, (c.content.length ≤ m + 1 ∨
      ∃ l ∈ seen, m < l.length ∧ c.content = jsTrim l) →
      c.content.length ≤ m + 1 ∨
        ∃ l ∈ seen ++ [line], m < l.length ∧ c.content = jsTrim l := by
    rintro c (hc | ⟨l, hl, hml, hcl⟩)
    · exact Or.inl hc
    · exact Or.inr ⟨l, List.mem_append_left _ hl, hml, hcl⟩
  have hline : line.length ≤ m + 1 ∨
      ∃ l ∈ seen ++ [line], m < l.length ∧ line = l := by
    by_cases hl : line.length ≤ m + 1
    · exact Or.inl hl
    · exact Or.inr ⟨line, List.mem_append_right _ (List.mem_singleton.mpr rfl),
        by omega, rfl⟩
  unfold processLine
  split
  · refine ⟨fun c hc => hmono c (h1 c hc), ?_⟩
    rcases h2 with hb | ⟨l, hl, hml, hbl⟩
    · exact Or.inl hb
    · exact Or.inr ⟨l, List.mem_append_left _ hl, hml, hbl⟩
  split
  next hcond =>
    constructor
    · intro c hc
      simp only [List.mem_append, List.mem_singleton] at hc
      rcases hc with hc | hc
      · exact hmono c (h1 c hc)
      · subst hc
        rcases h2 with hb | ⟨l, hl, hml, hbl⟩
        · exact Or.inl (le_trans (jsTrim_length_le _) hb)
        · exact Or.inr ⟨l, List.mem_append_left _ hl, hml, by rw [hbl]⟩
    · exact hline
  next hcond =>
    refine ⟨fun c hc => hmono c (h1 c hc), ?_⟩
    by_cases hbuf : st.currentChunk = []
    · simp only [hbuf, if_pos]
      simpa using hline
    · have hle : st.currentChunk.length + line.length ≤ m := by
        rcases not_and_or.mp hcond with h | h
        · omega
        · have : st.currentChunk.length > 0 := List.length_pos.mpr hbuf
          omega
      left
      simp [hbuf, List.length_append]
      omega

theorem size_foldl (fp ft : String) (m : Nat) :
    ∀ (lines seen : List (List Char)) (st : ChunkerState),
      (∀ c ∈ st.chunks, c.content.length ≤ m + 1 ∨
          ∃ l ∈ seen, m < l.length ∧ c.content = jsTrim l) →
      (st.currentChunk.length ≤ m + 1 ∨
          ∃ l ∈ seen, m < l.length ∧ st.currentChunk = l) →
      (∀ c ∈ (lines.foldl (processLine fp ft m) st).chunks,
          c.content.length ≤ m + 1 ∨
            ∃ l ∈ seen ++ lines, m < l.length ∧ c.content = jsTrim l) ∧
        ((lines.foldl (processLine fp ft m) st).currentChunk.length ≤ m + 1 ∨
          ∃ l ∈ seen ++ lines, m < l.length ∧
            (lines.foldl (processLine fp ft m) st).currentChunk = l)
  | [], seen, st, h1, h2 => by
    rw [List.foldl_nil, List.append_nil]
    exact ⟨h1, h2⟩
  | l :: ls, seen, st, h1, h2 => by
    have h := size_step fp ft m seen st l h1 h2
    have hrec := size_foldl fp ft m ls (seen ++ [l]) (processLine fp ft m st l) h.1 h.2
    simpa [List.append_assoc] using hrec

/-- C3 as amended: no emitted chunk's content length exceeds
`maxChunkSize + 1` (the one joining newline that the emit guard does not
count can push a chunk exactly one character over `maxChunkSize`), except a
chunk consisting of a single line whose own length exceeds `maxChunkSize`
(such a line is never split: the chunk is exactly that line, trimmed). -/
theorem chunker_size_bound_amended (fp ft : String) (m : Nat)
    (lines : List (List Char)) :
    ∀ c ∈ processFileWithStreaming fp ft m lines,
      c.content.length ≤ m + 1 ∨
        ∃ l ∈ lines, m < l.length ∧ c.content = jsTrim l := by
  have h := size_foldl fp ft m lines [] ⟨[], [], 0⟩ (by simp) (by simp)
  simp only [List.nil_append] at h
  intro c hc
  unfold processFileWithStreaming finishChunks at hc
  split at hc
  · simp only [List.mem_append, List.mem_singleton] at hc
    rcases hc with hc | hc
    · exact h.1 c hc
    · subst hc
      rcases h.2 with hb | ⟨l, hl, hml, hbl⟩
      · exact Or.inl (le_trans (jsTrim_length_le _) hb)
      · exact Or.inr ⟨l, hl, hml, by rw [hbl]⟩
  · exact h.1 c hc

/-- Witness for the amended C3 bound at a concrete input: the chunk "a\nb"
produced from lines "a", "b" with `maxChunkSize = 2` satisfies the amended
bound (its length is exactly `maxChunkSize + 1`). -/
theorem chunker_size_bound_amended_witness :
    (Chunk.mk ['a', '\n', 'b'] "f" "txt" 0).content.length ≤ 2 + 1 ∨
      ∃ l ∈ [['a'], ['b']], 2 < l.length ∧
        (Chunk.mk ['a', '\n', 'b'] "f" "txt" 0).content = jsTrim l :=
  chunker_size_bound_amended "f" "txt" 2 [['a'], ['b']] _ (by decide)

/-! Reconstruction law (streaming chunker). The invariant carried through
the line loop: the processed lines split into the consecutive groups `segs`
that produced the emitted chunks plus the group `bufLines` currently in the
buffer; the buffer string differs from the joined buffer group only by `k`
leading newlines (newlines that were dropped when an emitted chunk handed
an empty-string buffer to the append branch), which per-chunk trimming
erases. -/

theorem recon_step (fp ft : String) (m : Nat) (processed : List (List Char))
    (st : ChunkerState) (line : List Char) (hlen : line.length ≤ 10000)
    (hinv : ∃ (segs : List (List (List Char))) (bufLines : List (List Char)) (k : Nat),
      segs.join ++ bufLines = processed ∧
      st.chunks.map Chunk.content = segs.map (fun g => jsTrim (joinNL g)) ∧
      joinNL bufLines = List.replicate k '\n' ++ st.currentChunk) :
    ∃ (segs : List (List (List Char))) (bufLines : List (List Char)) (k : Nat),
      segs.join ++ bufLines = processed ++ [line] ∧
      (processLine fp ft m st line).chunks.map Chunk.content
          = segs.map (fun g => jsTrim (joinNL g)) ∧
      joinNL bufLines = List.replicate k '\n' ++
          (processLine fp ft m st line).currentChunk := by
  obtain ⟨segs, bufLines, k, hp, hc, hb⟩ := hinv
  unfold processLine
  split
  next h => omega
  split
  next hcond =>
    refine ⟨segs ++ [bufLines], [line], 0, ?_, ?_, ?_⟩
    · rw [show (segs ++ [bufLines]).join = segs.join ++ bufLines by simp,
        List.append_assoc, ← List.append_assoc, hp]
    · simp only [List.map_append, List.map_singleton, hc]
      congr 2
      rw [hb, jsTrim_newlines]
    · simp [joinNL]
  next hcond =>
    by_cases hbl : bufLines = []
    · have hnil : List.replicate k '\n' ++ st.currentChunk = [] := by
        rw [hbl] at hb
        exact hb.symm
      have hcc : st.currentChunk = [] := (List.append_eq_nil.mp hnil).2
      refine ⟨segs, [line], 0, ?_, hc, ?_⟩
      · rw [hbl] at hp
        simp only [List.append_nil] at hp
        rw [hp]
      · simp [joinNL, hcc]
    · by_cases hcc : st.currentChunk = []
      · refine ⟨segs, bufLines ++ [line], k + 1, ?_, hc, ?_⟩
        · rw [← List.append_assoc, hp]
        · rw [joinNL_concat _ _ hbl, hb, hcc]
          simp [List.replicate_succ']
      · refine ⟨segs, bufLines ++ [line], k, ?_, hc, ?_⟩
        · rw [← List.append_assoc, hp]
        · rw [joinNL_concat _ _ hbl, hb]
          simp [hcc, List.append_assoc]

theorem recon_foldl (fp ft : String) (m : Nat) :
    ∀ (lines processed : List (List Char)) (st : ChunkerState),
      (∀ l ∈ lines, l.length ≤ 10000) →
      (∃ (segs : List (List (List Char))) (bufLines : List (List Char)) (k : Nat),
        segs.join ++ bufLines = processed ∧
        st.chunks.map Chunk.content = segs.map (fun g => jsTrim (joinNL g)) ∧
        joinNL bufLines = List.replicate k '\n' ++ st.currentChunk) →
      ∃ (segs : List (List (List Char))) (bufLines : List (List Char)) (k : Nat),
        segs.join ++ bufLines = processed ++ lines ∧
        (lines.foldl (processLine fp ft m) st).chunks.map Chunk.content
            = segs.map (fun g => jsTrim (joinNL g)) ∧
        joinNL bufLines = List.replicate k '\n' ++
            (lines.foldl (processLine fp ft m) st).currentChunk
  | [], processed, st, _, hinv => by
    rw [List.foldl_nil, List.append_nil]
    exact hinv
  | l :: ls, processed, st, hlen, hinv => by
    have h := recon_step fp ft m processed st l (hlen l (by simp)) hinv
    have hrec := recon_foldl fp ft m ls (processed ++ [l])
      (processLine fp ft m st l) (fun x hx => hlen x (by simp [hx])) h
    simpa [List.append_assoc] using hrec

/-- C1: for a file whose lines are each at most 10000 characters long, the
chunks produced by the streaming chunker (in emission order, which by
`chunker_chunk_indices` is chunk_index order) reproduce the original
content modulo per-chunk trimming: the lines split into consecutive groups
`segs` plus a whitespace-only remainder `rest`, and the chunk contents are
exactly the per-group newline-joins, trimmed. Joining the chunks with
newlines therefore equals the original content up to the whitespace trimmed
at each chunk boundary. -/
theorem chunker_reconstruction (fp ft : String) (m : Nat)
    (lines : List (List Char)) (h : ∀ l ∈ lines, l.length ≤ 10000) :
    ∃ (segs : List (List (List Char))) (rest : List (List Char)), segs.join ++ rest = lines ∧
      (processFileWithStreaming fp ft m lines).map Chunk.content
          = segs.map (fun g => jsTrim (joinNL g)) ∧
      jsTrim (joinNL rest) = [] := by
  have hinv := recon_foldl fp ft m lines [] ⟨[], [], 0⟩ h
    ⟨[], [], 0, by simp, by simp, by simp [joinNL]⟩
  obtain ⟨segs, bufLines, k, hp, hc, hb⟩ := hinv
  simp only [List.nil_append] at hp
  unfold processFileWithStreaming finishChunks
  split
  next hne =>
    refine ⟨segs ++ [bufLines], [], ?_, ?_, ?_⟩
    · rw [show (segs ++ [bufLines]).join = segs.join ++ bufLines by simp,
        List.append_nil, hp]
    · simp only [List.map_append, List.map_singleton, hc]
      congr 2
      rw [hb, jsTrim_newlines]
    · simp [joinNL, jsTrim, trimLeft, trimRight]
  next hne =>
    refine ⟨segs, bufLines, hp, hc, ?_⟩
    rw [hb, jsTrim_newlines]
    simpa using hne

/-- Witness for C1 at a concrete input: the two lines "a" and "b" with
`maxChunkSize = 2` satisfy the hypothesis and admit the reconstruction
decomposition. -/
theorem chunker_reconstruction_witness :
    ∃ (segs : List (List (List Char))) (rest : List (List Char)), segs.join ++ rest = [['a'], ['b']] ∧
      (processFileWithStreaming "f" "txt" 2 [['a'], ['b']]).map Chunk.content
          = segs.map (fun g => jsTrim (joinNL g)) ∧
      jsTrim (joinNL rest) = [] :=
  chunker_reconstruction "f" "txt" 2 [['a'], ['b']] (by decide)

/-! Pattern matching (matchesPattern). -/

/-- C4: the pattern matcher's two shortcut rules. A pattern of the form
`base ++ "/**"` matches a relative path iff the path equals `base` or
starts with `base ++ "/"`; a pattern of the form `"*." ++ ext` (that does
not fall into the first rule) matches iff the path ends with `"." ++ ext`,
by exact (hence case-sensitive) suffix comparison. In particular
"node_modules/**" matches "node_modules" and "node_modules/foo/bar.js" but
not "my_node_modules/x", and "*.py" matches "a/b/c.py" but not "a/b/c.pyc". -/
theorem matchesPattern_rules :
    (∀ base path : List Char,
        (matchesPattern path (base ++ ['/', '*', '*']) = true ↔
          path = base ∨ (base ++ ['/']) <+: path)) ∧
      (∀ ext path : List Char,
        endsWithL ['/', '*', '*'] ('*' :: '.' :: ext) = false →
          (matchesPattern path ('*' :: '.' :: ext) = true ↔
            ('.' :: ext) <:+ path)) ∧
      matchesPattern (chars "node_modules") (chars "node_modules/**") = true ∧
      matchesPattern (chars "node_modules/foo/bar.js") (chars "node_modules/**") = true ∧
      matchesPattern (chars "my_node_modules/x") (chars "node_modules/**") = false ∧
      matchesPattern (chars "a/b/c.py") (chars "*.py") = true ∧
      matchesPattern (chars "a/b/c.pyc") (chars "*.py") = false := by
  refine ⟨?_, ?_, by decide, by decide, by decide, by decide, by decide⟩
  · intro base path
    have hsuf : endsWithL ['/', '*', '*'] (base ++ ['/', '*', '*']) = true := by
      rw [endsWithL_iff]
      exact List.suffix_append base _
    have hlen : (base ++ ['/', '*', '*']).length - 3 = base.length := by
      simp
    rw [matchesPattern, if_pos hsuf]
    simp only [hlen, List.take_left]
    simp [startsWithL_iff]
  · intro ext path h
    have hstar : startsWithL ['*', '.'] ('*' :: '.' :: ext) = true := by
      simp [startsWithL]
    rw [matchesPattern, if_neg (by simp [h]), if_pos hstar]
    simpa using endsWithL_iff ('.' :: ext) path

/-- Witness for C4 at concrete inputs: the extension rule applied to pattern
"*.py" and path "a/b/c.py", with the rule's side condition discharged by
computation. -/
theorem matchesPattern_rules_witness :
    matchesPattern (chars "a/b/c.py") ('*' :: '.' :: ['p', 'y']) = true ↔
      ('.' :: ['p', 'y']) <:+ chars "a/b/c.py" :=
  matchesPattern_rules.2.1 ['p', 'y'] (chars "a/b/c.py") (by decide)

/-! Batch ingestion (storeChunksInBatches). -/

theorem storeChunksGo_cons (pid : String) (bs i : Nat) (c : StoredChunk)
    (rest : List StoredChunk) :
    storeChunksGo pid bs i (c :: rest) =
      { ids := (List.range ((c :: rest).take bs).length).map
          (fun idx => chunkId pid (i + idx)),
        documents := ((c :: rest).take bs).map StoredChunk.content,
        metadatas := ((c :: rest).take bs).map storedMetadata } ::
        storeChunksGo pid bs (i + bs) (rest.drop (bs - 1)) := by
  rw [storeChunksGo]

theorem storeChunksGo_spec (pid : String) :
    ∀ (n : Nat) (chunks : List StoredChunk) (i : Nat), chunks.length ≤ n →
      ((storeChunksGo pid 100 i chunks).map BatchWrite.ids).flatten
          = (List.range' i chunks.length).map (chunkId pid) ∧
        ((storeChunksGo pid 100 i chunks).map BatchWrite.documents).flatten
          = chunks.map StoredChunk.content ∧
        ((storeChunksGo pid 100 i chunks).map BatchWrite.metadatas).flatten
          = chunks.map storedMetadata ∧
        ∀ b ∈ storeChunksGo pid 100 i chunks,
          b.ids.length = b.documents.length ∧ b.ids.length = b.metadatas.length ∧
            0 < b.ids.length ∧ b.ids.length ≤ 100
  | 0, chunks, i, hle => by
    have hnil : chunks = [] := List.length_eq_zero.mp (Nat.le_zero.mp hle)
    subst hnil
    simp [storeChunksGo]
  | n + 1, [], i, _ => by simp [storeChunksGo]
  | n + 1, c :: rest, i, hle => by
    have hlen : (rest.drop 99).length ≤ n := by
      simp only [List.length_drop]
      simp only [List.length_cons] at hle
      omega
    obtain ⟨hi, hd, hm, hb⟩ := storeChunksGo_spec pid n (rest.drop 99) (i + 100) hlen
    rw [storeChunksGo_cons]
    rw [show rest.drop (100 - 1) = rest.drop 99 from rfl]
    have htd : List.take 100 (c :: rest) ++ rest.drop 99 = c :: rest := by
      rw [show rest.drop 99 = (c :: rest).drop 100 from rfl, List.take_append_drop]
    refine ⟨?_, ?_, ?_, ?_⟩
    · rw [List.map_cons, List.flatten_cons, hi]
      rw [show (List.range ((List.take 100 (c :: rest)).length)).map
            (fun idx => chunkId pid (i + idx))
          = (List.range' i ((List.take 100 (c :: rest)).length)).map (chunkId pid) by
        rw [List.range'_eq_map_range, List.map_map]; rfl]
      rw [List.length_take, List.length_drop]
      simp only [List.length_cons]
      rcases Nat.le_total (rest.length + 1) 100 with hc | hc
      · rw [Nat.min_eq_right hc, show rest.length - 99 = 0 by omega]
        simp
      · rw [Nat.min_eq_left hc, ← List.map_append]
        rw [show rest.length - 99 = rest.length + 1 - 100 by omega]
        rw [show (i + 100) = (i + 1 * 100) by omega, List.range'_append]
        congr 2
        omega
    · rw [List.map_cons, List.flatten_cons, hd, ← List.map_append, htd]
    · rw [List.map_cons, List.flatten_cons, hm, ← List.map_append, htd]
    · intro b hbmem
      rcases List.mem_cons.mp hbmem with hbe | hbm
      · subst hbe
        refine ⟨by simp, by simp, ?_, ?_⟩ <;>
          simp only [List.length_map, List.length_range, List.length_take,
            List.length_cons] <;> omega
      · exact hb b hbm

/-- C5: ingesting a chunk list of length L with batch size 100 stores, across
the batches in write order, exactly the ids `{projectId}_chunk_0` through
`{projectId}_chunk_{L-1}` numbered by position in the whole run's chunk
list; the joined documents and metadata equal the chunk list's contents and
metadata in the same order (so the batches are contiguous slices written in
offset order); and each batch's id, document and metadata arrays have equal
length, at most 100 and at least 1. -/
theorem storeChunksInBatches_spec (pid : String) (chunks : List StoredChunk) :
    ((storeChunksInBatches chunks pid 100).map BatchWrite.ids).flatten
        = (List.range chunks.length).map (chunkId pid) ∧
      ((storeChunksInBatches chunks pid 100).map BatchWrite.documents).flatten
        = chunks.map StoredChunk.content ∧
      ((storeChunksInBatches chunks pid 100).map BatchWrite.metadatas).flatten
        = chunks.map storedMetadata ∧
      ∀ b ∈ storeChunksInBatches chunks pid 100,
        b.ids.length = b.documents.length ∧ b.ids.length = b.metadatas.length ∧
          0 < b.ids.length ∧ b.ids.length ≤ 100 := by
  have h := storeChunksGo_spec pid chunks.length chunks 0 le_rfl
  rw [List.range_eq_range']
  exact h

/-- Witness for C5 at a concrete input: the single batch produced for a
one-chunk run has parallel arrays of length 1. -/
theorem storeChunksInBatches_spec_witness :
    (BatchWrite.mk [chunkId "p" 0] [['x']]
          [storedMetadata ⟨['x'], "a.py", "py", 0, "p", "P", "/p", "local", "t"⟩]).ids.length
        = (BatchWrite.mk [chunkId "p" 0] [['x']]
          [storedMetadata ⟨['x'], "a.py", "py", 0, "p", "P", "/p", "local", "t"⟩]).documents.length ∧
      (BatchWrite.mk [chunkId "p" 0] [['x']]
          [storedMetadata ⟨['x'], "a.py", "py", 0, "p", "P", "/p", "local", "t"⟩]).ids.length
        = (BatchWrite.mk [chunkId "p" 0] [['x']]
          [storedMetadata ⟨['x'], "a.py", "py", 0, "p", "P", "/p", "local", "t"⟩]).metadatas.length ∧
      0 < (BatchWrite.mk [chunkId "p" 0] [['x']]
          [storedMetadata ⟨['x'], "a.py", "py", 0, "p", "P", "/p", "local", "t"⟩]).ids.length ∧
      (BatchWrite.mk [chunkId "p" 0] [['x']]
          [storedMetadata ⟨['x'], "a.py", "py", 0, "p", "P", "/p", "local", "t"⟩]).ids.length ≤ 100 :=
  (storeChunksInBatches_spec "p" [⟨['x'], "a.py", "py", 0, "p", "P", "/p", "local", "t"⟩]).2.2.2
    _ (by
      rw [storeChunksInBatches, storeChunksGo_cons]
      exact List.mem_cons_self _ _)

/-! Batch write failure semantics (storeChunksInBatches + indexLocalProject). -/

theorem storeExec_fail (ok : Nat → Bool) :
    ∀ (batches : List BatchWrite) (j k : Nat), k < batches.length →
      ok (j + k) = false → (∀ i, i < k → ok (j + i) = true) →
      storeExec ok j batches = (batches.take k, Except.error ())
  | [], _, k, hk, _, _ => absurd hk (by simp)
  | b :: rest, j, 0, _, hfail, _ => by
    have hj : ok j = false := by simpa using hfail
    simp [storeExec, hj]
  | b :: rest, j, k + 1, hk, hfail, hpre => by
    have hj : ok j = true := by simpa using hpre 0 (Nat.succ_pos k)
    have hrec := storeExec_fail ok rest (j + 1) k
      (by simpa using hk)
      (by rw [show j + 1 + k = j + (k + 1) by omega]; exact hfail)
      (fun i hi => by
        rw [show j + 1 + i = j + (i + 1) by omega]
        exact hpre (i + 1) (by omega))
    simp [storeExec, hj, hrec]

/-- C7: if the vector-store write of the batch at position k fails (all
earlier writes having succeeded), the batch loop stops there: exactly the
batches before the failing one remain persisted (no rollback, nothing
later is written) and the error propagates, which `indexLocalProject`
rethrows as a hard failure of the whole request. -/
theorem batch_write_failure_aborts (ok : Nat → Bool) (batches : List BatchWrite)
    (k : Nat) (hk : k < batches.length) (hfail : ok k = false)
    (hpre : ∀ i, i < k → ok i = true) :
    storeExec ok 0 batches = (batches.take k, Except.error ()) ∧
      indexRunResult ok batches = Except.error () := by
  have h := storeExec_fail ok batches 0 k hk (by simpa using hfail)
    (fun i hi => by simpa using hpre i hi)
  exact ⟨h, by simp [indexRunResult, h]⟩

/-- Witness for C7 at a concrete input: two batches, the write of the second
one failing. -/
theorem batch_write_failure_aborts_witness :
    storeExec (fun n => decide (n = 0)) 0 [BatchWrite.mk [] [] [], BatchWrite.mk [] [] []]
        = ([BatchWrite.mk [] [] [], BatchWrite.mk [] [] []].take 1, Except.error ()) ∧
      indexRunResult (fun n => decide (n = 0)) [BatchWrite.mk [] [] [], BatchWrite.mk [] [] []]
        = Except.error () :=
  batch_write_failure_aborts (fun n => decide (n = 0))
    [BatchWrite.mk [] [] [], BatchWrite.mk [] [] []] 1
    (by decide) (by decide) (by decide)

/-! Embedding fallback (OllamaEmbeddingFunction.generate). -/

theorem ollamaGenerate_map (f : List Char → Except Unit (List Int))
    (texts : List (List Char)) :
    ollamaGenerate f texts = texts.map (fun t =>
      match f t with
      | Except.ok e => e
      | Except.error _ => List.replicate 384 0) := by
  induction texts with
  | nil => rfl
  | cons t ts ih =>
    simp only [ollamaGenerate, List.map_cons]
    rw [ih]

theorem ollamaGenerate_get (f : List Char → Except Unit (List Int)) :
    ∀ (texts : List (List Char)) (i : Nat) (hi : i < texts.length)
      (hi2 : i < (ollamaGenerate f texts).length),
      (ollamaGenerate f texts).get ⟨i, hi2⟩ =
        match f (texts.get ⟨i, hi⟩) with
        | Except.ok e => e
        | Except.error _ => List.replicate 384 0
  | _ :: _, 0, _, _ => rfl
  | _ :: ts, i + 1, hi, hi2 =>
    ollamaGenerate_get f ts i (Nat.lt_of_succ_lt_succ hi)
      (Nat.lt_of_succ_lt_succ hi2)

/-- C6: the local-HTTP embedding provider returns exactly one vector per
input text, in input order, and never raises: a text whose per-request
outcome is a failure (non-success response or transport error) contributes
a zero-filled vector of length 384, a text whose request succeeds
contributes the returned embedding, and processing continues across
failures (the function is total and its output length always matches the
input length). -/
theorem ollamaGenerate_spec (f : List Char → Except Unit (List Int))
    (texts : List (List Char)) :
    (ollamaGenerate f texts).length = texts.length ∧
      (∀ (i : Nat) (hi : i < texts.length)
          (hi2 : i < (ollamaGenerate f texts).length),
        f (texts.get ⟨i, hi⟩) = Except.error () →
          (ollamaGenerate f texts).get ⟨i, hi2⟩ = List.replicate 384 0) ∧
      (∀ (i : Nat) (hi : i < texts.length)
          (hi2 : i < (ollamaGenerate f texts).length) (e : List Int),
        f (texts.get ⟨i, hi⟩) = Except.ok e →
          (ollamaGenerate f texts).get ⟨i, hi2⟩ = e) := by
  refine ⟨?_, ?_, ?_⟩
  · rw [ollamaGenerate_map]
    exact List.length_map _ _
  · intro i hi hi2 herr
    rw [ollamaGenerate_get f texts i hi hi2, herr]
  · intro i hi hi2 e hok
    rw [ollamaGenerate_get f texts i hi hi2, hok]

/-- Witness for C6 at a concrete input: with an endpoint that always fails,
`embed(["x"])` yields exactly the zero vector of length 384 as its only
element. -/
theorem ollamaGenerate_spec_witness :
    (ollamaGenerate (fun _ => Except.error ()) [['x']]).get ⟨0, by
        rw [(ollamaGenerate_spec (fun _ => Except.error ()) [['x']]).1]
        exact Nat.zero_lt_one⟩
      = List.replicate 384 0 :=
  (ollamaGenerate_spec (fun _ => Except.error ()) [['x']]).2.1 0
    Nat.zero_lt_one _ rfl

/-! Similarity formatting (searchCodebase / searchByFileType). -/

/-- C8: the similarity displayed for a result with distance d is
`1 - d` formatted to three decimal places (an integer multiple of 1/1000),
with no clamping to [0,1]: every distance beyond 1 + 1/2000 displays as a
negative similarity, and in particular distance 2 displays as -1.000 — an
ordinary value produced by the same code path as any other, not an error. -/
theorem similarity_formatting :
    (∀ d : ℚ, ∃ n : ℤ, displayedSimilarity d = (n : ℚ) / 1000) ∧
      (∀ d : ℚ, 1 + 1 / 2000 < d → displayedSimilarity d < 0) ∧
      ((1 : ℚ) < 2 ∧ displayedSimilarity 2 = -1) := by
  refine ⟨fun d => ⟨round (similarityOfDistance d * 1000), rfl⟩, ?_, by norm_num, ?_⟩
  · intro d hd
    unfold displayedSimilarity toFixed3 similarityOfDistance
    have h2 : round (((1 : ℚ) - d) * 1000) < 0 := by
      rw [round_eq]
      refine Int.floor_lt.mpr ?_
      push_cast
      linarith
    refine div_neg_of_neg_of_pos ?_ (by norm_num)
    exact_mod_cast h2
  · have h : ((1 : ℚ) - 2) * 1000 = ((-1000 : ℤ) : ℚ) := by norm_num
    unfold displayedSimilarity toFixed3 similarityOfDistance
    rw [h, round_intCast]
    norm_num

/-- Witness for C8 at a concrete input: distance 2 exceeds the threshold and
its displayed similarity is negative. -/
theorem similarity_formatting_witness :
    displayedSimilarity 2 < 0 :=
  similarity_formatting.2.1 2 (by norm_num)

/-! File reconstruction on retrieval (getFileContent). -/

theorem sortChunks_perm (records : List FileRecord) :
    (sortChunks records).Perm records :=
  List.mergeSort_perm records _

theorem sortChunks_sorted (records : List FileRecord) :
    List.Pairwise (fun a b => recKey a ≤ recKey b) (sortChunks records) := by
  have h := @List.sorted_mergeSort FileRecord
    (fun a b => decide (recKey a ≤ recKey b))
    (fun a b c hab hbc => by
      simp only [decide_eq_true_eq] at *
      omega)
    (fun a b => by
      simp only [Bool.or_eq_true, decide_eq_true_eq]
      exact Nat.le_total _ _)
    records
  exact h.imp (fun hab => by simpa using hab)

theorem sortChunks_eq_of_perm (records records₂ : List FileRecord)
    (hperm : records₂.Perm records) (hnodup : (records.map recKey).Nodup) :
    sortChunks records₂ = sortChunks records := by
  have hp : (sortChunks records₂).Perm (sortChunks records) :=
    ((sortChunks_perm records₂).trans hperm).trans (sortChunks_perm records).symm
  have hstrict : ∀ l : List FileRecord, l.Perm records →
      List.Pairwise (fun a b => recKey a ≤ recKey b) l →
      List.Pairwise (fun a b => recKey a < recKey b) l := by
    intro l hl hs
    have hnd : (l.map recKey).Nodup :=
      ((hl.map recKey).symm).nodup hnodup
    have hne : List.Pairwise (fun a b => recKey a ≠ recKey b) l :=
      List.pairwise_map.mp hnd
    exact (hs.and hne).imp (fun h => lt_of_le_of_ne h.1 h.2)
  have hs₂ := hstrict (sortChunks records₂) ((sortChunks_perm records₂).trans hperm)
    (sortChunks_sorted records₂)
  have hs₁ := hstrict (sortChunks records) (sortChunks_perm records)
    (sortChunks_sorted records)
  exact @List.eq_of_perm_of_sorted _ (fun a b => recKey a < recKey b)
    ⟨fun a b h1 h2 => absurd h2 (Nat.lt_asymm h1)⟩ _ _ hp hs₂ hs₁

/-- C9: getFileContent joins, with newline separators, the content fields of
the returned records rearranged into ascending chunk_index order (a
permutation of the records, sorted on the key); when the per-file indices
are distinct this result is the same no matter in which order the store
returned the records; a record whose metadata lacks chunk_index sorts with
key 0 (concretely, a none-index record sorts before a some-1 record); and
an empty record set produces the well-formed "File not found" text
response rather than a failure. -/
theorem getFileContent_spec (records : List FileRecord) :
    (∃ sorted : List FileRecord, sorted.Perm records ∧
        List.Pairwise (fun a b => recKey a ≤ recKey b) sorted ∧
        getFileContentText records = joinNL (sorted.map FileRecord.content)) ∧
      (∀ records₂ : List FileRecord, records₂.Perm records →
        (records.map recKey).Nodup →
        getFileContentText records₂ = getFileContentText records) ∧
      (∀ c : List Char, recKey ⟨c, none⟩ = 0) ∧
      sortChunks [⟨['b'], some 1⟩, ⟨['a'], none⟩]
        = [⟨['a'], none⟩, ⟨['b'], some 1⟩] ∧
      (∀ path : List Char,
        getFileContent path [] =
          FileContentResult.notFound (chars "File not found: " ++ path)) := by
  refine ⟨⟨sortChunks records, sortChunks_perm records, sortChunks_sorted records,
    rfl⟩, ?_, fun c => rfl, ?_, fun path => rfl⟩
  · intro records₂ hperm hnodup
    rw [getFileContentText, getFileContentText,
      sortChunks_eq_of_perm records records₂ hperm hnodup]
  · simp [sortChunks, List.mergeSort, recKey]

/-- Witness for C9 at a concrete input: the two chunks of a file handed back
by the store in reversed order reconstruct to the same text as in index
order. -/
theorem getFileContent_spec_witness :
    getFileContentText [⟨['b'], some 1⟩, ⟨['a'], some 0⟩]
      = getFileContentText [⟨['a'], some 0⟩, ⟨['b'], some 1⟩] :=
  (getFileContent_spec [⟨['a'], some 0⟩, ⟨['b'], some 1⟩]).2.1
    [⟨['b'], some 1⟩, ⟨['a'], some 0⟩] (by decide) (by decide)

/-! Empty project filter (searchCodebase). -/

/-- C10: calling searchCodebase with project_filter equal to the empty string
issues exactly the same vector-store query as omitting project_filter: the
truthiness check treats "" as absent, so no project_id equality filter is
passed and the search runs unfiltered; whereas any non-empty filter string
is passed through as a project_id equality filter. -/
theorem search_empty_filter_unfiltered :
    (∀ (q : String) (limit : Nat),
        searchCodebaseQuery q limit (some "") = searchCodebaseQuery q limit none) ∧
      (∀ (q : String) (limit : Nat),
        (searchCodebaseQuery q limit (some "")).whereProjectId = none) ∧
      (∀ (q : String) (limit : Nat) (f : String), f ≠ "" →
        (searchCodebaseQuery q limit (some f)).whereProjectId = some f) := by
  refine ⟨fun q l => rfl, fun q l => rfl, ?_⟩
  intro q l f hf
  simp [searchCodebaseQuery, searchWhereClause, hf]

/-- Witness for C10 at a concrete input: a non-empty filter string is passed
through to the store as an equality filter. -/
theorem search_empty_filter_unfiltered_witness :
    (searchCodebaseQuery "q" 10 (some "proj")).whereProjectId = some "proj" :=
  search_empty_filter_unfiltered.2.2 "q" 10 "proj" (by decide)

end CodeSearch
